import Mathlib

/-!
Formal model of the calendar time-layout engine:
coordinate/snap math (`timeGrid.ts`), pure event-update helpers
(`eventUpdates.ts`), recurrence expansion (`occurrence.ts`), lane
assignment (`lanes.ts`), and the drag/resize preview-commit protocol
(week view + `dragPreview.ts`).

Conventions of the embedding:
- Timestamps (JS `Date.getTime()` / ISO strings) are modelled as integer
  milliseconds; an ISO string is identified with its parsed timestamp.
- JS `number` arithmetic is modelled as exact arithmetic (`ℤ`, and `ℚ`
  where the source divides); `Math.round` rounds half toward +∞,
  JS `%` is truncating remainder (`Int.tmod`).
-/

/-- JS `Math.round`: round half toward positive infinity, `⌊x + 1/2⌋`. -/
def jsRound (q : ℚ) : ℤ := ⌊q + 1/2⌋

/-- Snap granularity in minutes for drag/selection (`SNAP_MIN` in `timeGrid.ts`). -/
def SNAP_MIN : ℤ := 15

/-- Function `snapMins` from `timeGrid.ts`: `Math.round(mins / snap) * snap`. -/
def snapMins (mins : ℤ) (snap : ℤ) : ℤ := jsRound ((mins : ℚ) / (snap : ℚ)) * snap

/-- Function `absMinsToGridMins` from `timeGrid.ts`:
`(absMins - offset + 24*60) % (24*60)` with
`offset = clamp(0,23,floor(startHour)) * 60`; JS `%` is `Int.tmod`.
`startHour` is an integer here, so `Math.floor` is the identity. -/
def absMinsToGridMins (absMins startHour : ℤ) : ℤ :=
  let offset := (max 0 (min 23 startHour)) * 60
  Int.tmod (absMins - offset + 24 * 60) (24 * 60)

/-- Function `gridMinsToAbsMins` from `timeGrid.ts`: `(gridMins + offset) % (24*60)`. -/
def gridMinsToAbsMins (gridMins startHour : ℤ) : ℤ :=
  let offset := (max 0 (min 23 startHour)) * 60
  Int.tmod (gridMins + offset) (24 * 60)

/-- Milliseconds in a minute (`MS_IN_MIN` in `eventUpdates.ts`). -/
def MS_IN_MIN : ℤ := 60000

/-- Milliseconds in a day (`setDate(getDate()+k)` day stepping, fixed-offset model). -/
def MS_IN_DAY : ℤ := 86400000

/-- Patch returned by the move helpers: new `start`/`end` timestamps.
Rational because JS computes the duration as `(endMs - startMs) / 60000`,
a floating-point minute count, before scaling back to milliseconds. -/
structure MovePatch where
  start : ℚ
  «end» : ℚ
  deriving Repr, DecidableEq

/-- Function `computeMoveWithinDay` from `eventUpdates.ts`.
`startMs`/`endMs` are the parsed `ev.start`/`ev.end`; `dayMidnightMs` is the
anchor day at 00:00 (`d.setHours(0,0,0,0)`); `d.setMinutes(m)` adds `m`
minutes to midnight. -/
def computeMoveWithinDay (startMs endMs dayMidnightMs : ℤ) (newStartMins : ℤ)
    (snap : ℤ → ℤ) (snapMin : ℤ) : MovePatch :=
  let durMins : ℚ := max 0 (((endMs : ℚ) - (startMs : ℚ)) / (MS_IN_MIN : ℚ))
  let d : ℚ := (dayMidnightMs : ℚ) +
    ((snap (max 0 (min (24 * 60 - snapMin) newStartMins)) : ℤ) : ℚ) * (MS_IN_MIN : ℚ)
  { start := d, «end» := d + durMins * (MS_IN_MIN : ℚ) }

/-- Function `computeResizeWithinDay` from `eventUpdates.ts`, returning the new end
timestamp in milliseconds.  `startMins` is `getHours()*60 + getMinutes()` of the event start; `dayMidnightMs` the anchor day at 00:00. -/
def computeResizeWithinDay (startMins dayMidnightMs : ℤ) (newEndMins : ℤ)
    (snap : ℤ → ℤ) (snapMin : ℤ) : ℤ :=
  let minEnd := startMins + snapMin
  let mins := snap (max minEnd (min (24 * 60) newEndMins))
  dayMidnightMs + mins * MS_IN_MIN

/-- Function `computeMoveToDay` from `eventUpdates.ts`: like `computeMoveWithinDay`
but anchored at `weekStart` plus a day index clamped to `0..6`. -/
def computeMoveToDay (startMs endMs weekStartMidnightMs : ℤ) (dayIndex : ℤ)
    (newStartMins : ℤ) (snap : ℤ → ℤ) (snapMin : ℤ) : MovePatch :=
  let durMins : ℚ := max 0 (((endMs : ℚ) - (startMs : ℚ)) / (MS_IN_MIN : ℚ))
  let base : ℚ := ((weekStartMidnightMs + (max 0 (min 6 dayIndex)) * MS_IN_DAY : ℤ) : ℚ) +
    ((snap (max 0 (min (24 * 60 - snapMin) newStartMins)) : ℤ) : ℚ) * (MS_IN_MIN : ℚ)
  { start := base, «end» := base + durMins * (MS_IN_MIN : ℚ) }

/-- Function `computeResizeToDay` from `eventUpdates.ts`: proposed end is the target
day at the snapped/clamped minutes, floored at `start + SNAP_MIN` minutes. -/
def computeResizeToDay (startMs weekStartMidnightMs : ℤ) (dayIndex : ℤ)
    (newEndMins : ℤ) (snap : ℤ → ℤ) (snapMin : ℤ) : ℤ :=
  let endDay := weekStartMidnightMs + (max 0 (min 6 dayIndex)) * MS_IN_DAY
  let minsClamped := snap (max 0 (min (24 * 60) newEndMins))
  let proposedEnd := endDay + minsClamped * MS_IN_MIN
  let minEndTime := startMs + snapMin * MS_IN_MIN
  if proposedEnd < minEndTime then minEndTime else proposedEnd

/-- Type `EventItem` from `types.ts`, with timestamps as millisecond integers and
`exdates` entries identified with their parsed timestamps
(`new Date(x).getTime()`).  Cosmetic optional fields (`color`, `tags`,
`location`, `notes`, `reminderMinutes`, `category`) are carried unchanged by
every operation modelled here and are omitted.  `sourceId` is the extra
field of `EventOccurrence` (absent on stored events). -/
structure EventItem where
  id : String
  title : String
  start : ℤ
  «end» : ℤ
  allDay : Bool
  rrule : Option String
  exdates : List ℤ
  parentId : Option String
  sourceId : Option String
  deriving Repr, DecidableEq

/-- Body of `expandEventsForRange` for one event (`occurrence.ts`).
The external `rrule` library is abstracted: `rrulestr` may fail
(`none` models the exception it throws on a malformed rule) and
`between` enumerates instance start timestamps of a parsed rule inside a
window.  A thrown exception is modelled as `Except.error`. -/
def expandEvent {R : Type} (rrulestr : String → ℤ → Option R)
    (between : R → ℤ → ℤ → List ℤ) (winS winE : ℤ) (ev : EventItem) :
    Except String (List EventItem) :=
  match ev.parentId with
  | some _ => .ok [ev]
  | none =>
    match ev.rrule with
    | some r =>
      match rrulestr r ev.start with
      | none => .error ("Invalid rrule: " ++ r)
      | some rule =>
        let dtstart := ev.start
        let duration := ev.«end» - dtstart
        let dates := between rule winS winE
        .ok ((dates.filter (fun d => !(ev.exdates.any (fun x => x = d)))).map
          (fun d =>
            { ev with
              id := ev.id ++ "::" ++ toString d
              sourceId := some ev.id
              start := d
              «end» := d + duration }))
    | none => .ok [ev]

/-- Function `expandEventsForRange` from `occurrence.ts`: expand each event in order,
concatenating occurrences; an uncaught `rrulestr` exception aborts the whole
expansion.  `sod`/`eod` model date-fns `startOfDay`/`endOfDay` applied to the
requested range before it is handed to `rule.between`. -/
def expandEventsForRange {R : Type} (rrulestr : String → ℤ → Option R)
    (between : R → ℤ → ℤ → List ℤ) (sod eod : ℤ → ℤ)
    (events : List EventItem) (rangeStart rangeEnd : ℤ) :
    Except String (List EventItem) :=
  match events with
  | [] => .ok []
  | ev :: rest => do
    let occs ← expandEvent rrulestr between (sod rangeStart) (eod rangeEnd) ev
    let rests ← expandEventsForRange rrulestr between sod eod rest rangeStart rangeEnd
    .ok (occs ++ rests)

/-- Type `Seg` from `lanes.ts`: a time segment to be stacked in lanes.  The opaque
payload `data : T` is never read by `assignLanes` and is omitted. -/
structure Seg where
  id : String
  startMins : ℤ
  endMins : ℤ
  deriving Repr, DecidableEq

/-- True overlap between two segments, as documented in `lanes.ts`:
`a.start < b.end and b.start < a.end`. -/
def overlapsSeg (a b : Seg) : Prop :=
  a.startMins < b.endMins ∧ b.startMins < a.endMins

instance (a b : Seg) : Decidable (overlapsSeg a b) := by
  unfold overlapsSeg; infer_instance

/-- Sort order of `assignLanes`: by start minute, then by id
(`(a.startMins - b.startMins) || a.id.localeCompare(b.id)`). -/
def segLE (a b : Seg) : Bool :=
  decide (a.startMins < b.startMins ∨ (a.startMins = b.startMins ∧ a.id ≤ b.id))

/-- JS `Map.get`: first binding of the key, if any. -/
def mapGet (m : List (String × ℕ)) (k : String) : Option ℕ :=
  (m.find? (fun p => p.1 = k)).map (fun p => p.2)

/-- JS `Map.set`: update the existing binding in place, else append. -/
def mapSet (m : List (String × ℕ)) (k : String) (v : ℕ) : List (String × ℕ) :=
  if m.any (fun p => p.1 = k) then
    m.map (fun p => if p.1 = k then (k, v) else p)
  else m ++ [(k, v)]

/-- The inner placement loop of `assignLanes`: find the first lane whose
recorded end is `≤ seg.startMins` and overwrite it with `seg.endMins`;
if none exists, append a new lane.  Returns the chosen lane index and the
updated `laneEnds`. -/
def placeSeg : List ℤ → Seg → ℕ × List ℤ
  | [], s => (0, [s.endMins])
  | e :: rest, s =>
    if e ≤ s.startMins then (0, s.endMins :: rest)
    else
      let p := placeSeg rest s
      (p.1 + 1, e :: p.2)

/-- Mutable state of the `assignLanes` sweep: `laneEnds` and the
`laneIndexById` map. -/
structure LaneState where
  laneEnds : List ℤ
  laneIndexById : List (String × ℕ)
  deriving Repr, DecidableEq

/-- One iteration of the `assignLanes` loop. -/
def assignStep (st : LaneState) (s : Seg) : LaneState :=
  let p := placeSeg st.laneEnds s
  { laneEnds := p.2, laneIndexById := mapSet st.laneIndexById s.id p.1 }

/-- Result of `assignLanes`. -/
structure LaneResult where
  sorted : List Seg
  laneIndexById : List (String × ℕ)
  laneCount : ℕ
  deriving Repr, DecidableEq

/-- Function `assignLanes` from `lanes.ts`: drop non-positive-length segments, sort by
`(startMins, id)`, place each segment greedily, and return the sorted list,
the id→lane map and `laneCount = max(1, laneEnds.length)`. -/
def assignLanes (segs : List Seg) : LaneResult :=
  let sorted := (segs.filter (fun s => s.endMins > s.startMins)).mergeSort segLE
  let st := sorted.foldl assignStep { laneEnds := [], laneIndexById := [] }
  { sorted := sorted, laneIndexById := st.laneIndexById,
    laneCount := max 1 st.laneEnds.length }

/-- Result of committing a gesture on a recurring occurrence (the detach
branch of `onDragEnd`/`onResizeEnd` in the week view): the new `exdates`
value written to the series, and the payload inserted as a new event. -/
structure DetachResult where
  newExdates : List ℤ
  detached : EventItem
  deriving Repr, DecidableEq

/-- Detach branch of the week view `onDragEnd`: move one occurrence of a
recurring event.  `occStartMs`/`occEndMs` are the parsed occurrence
`e.start`/`e.end`; the new start is the target day (`rangeStart` plus
`p.dayIndex` days, at midnight) plus `p.startMins` minutes; the duration is
preserved.  The series update is `{ exdates: [...prevEx, e.start] }`; the
inserted payload has its `id` stripped (the store assigns one, modelled as
`""`), `parentId = parent.id`, and no `rrule`/`exdates`. -/
def detachMoveCommit (parent : EventItem) (occStartMs occEndMs : ℤ)
    (weekStartMidnightMs dayIdx startMins : ℤ) : DetachResult :=
  let duration := occEndMs - occStartMs
  let newStart := weekStartMidnightMs + dayIdx * MS_IN_DAY + startMins * MS_IN_MIN
  let newEnd := newStart + duration
  { newExdates := parent.exdates ++ [occStartMs]
    detached :=
      { parent with
        id := ""
        parentId := some parent.id
        rrule := none
        exdates := []
        start := newStart
        «end» := newEnd } }

/-- Detach branch of the week view `onResizeEnd`: keep the start of the
occurrence, set the end to the target day at `pr.endMins` minutes. -/
def detachResizeCommit (parent : EventItem) (occStartMs : ℤ)
    (weekStartMidnightMs dayIdx endMins : ℤ) : DetachResult :=
  let newEnd := weekStartMidnightMs + dayIdx * MS_IN_DAY + endMins * MS_IN_MIN
  { newExdates := parent.exdates ++ [occStartMs]
    detached :=
      { parent with
        id := ""
        parentId := some parent.id
        rrule := none
        exdates := []
        start := occStartMs
        «end» := newEnd } }

/-- Model of the store applying `actions.update` with an exdates-only patch
(`Object.assign(draft, patch)`): only the `exdates` field changes. -/
def applyExdatesPatch (ev : EventItem) (xs : List ℤ) : EventItem :=
  { ev with exdates := xs }

/-- A persisted write issued to the external store during a gesture commit. -/
inductive StoreWrite where
  | update (id : String) (patch : MovePatch)
  | updateExdates (id : String) (exdates : List ℤ)
  | add (payload : EventItem)
  deriving Repr, DecidableEq

/-- Per-gesture context of the week view drag protocol: the base event
(`state.events.find(e => e.id === baseId)`), whether the dragged block is a
recurring occurrence (`e.sourceId` set and the base has an `rrule`), the
parsed occurrence `e.start`/`e.end`, the week range start, and the column
index `i` the gesture started in. -/
structure DragCtx where
  base : EventItem
  recurring : Bool
  occStartMs : ℤ
  occEndMs : ℤ
  weekStartMidnightMs : ℤ
  colIdx : ℤ
  deriving Repr, DecidableEq

/-- Pointer protocol events of one drag gesture.  `pointer.ts` registers the
same handler for `pointerup` and `pointercancel`, so both terminate the
gesture through `onDragEnd`. -/
inductive GEvent where
  | move (mins : ℤ) (dayIdx : ℤ)
  | up
  | cancel
  deriving Repr, DecidableEq

/-- Function `setStart` of `createPreviewState` (`dragPreview.ts`) with the week
view `snap`/`SNAP_MIN`: clamp to `[0, 1440 - SNAP_MIN]` and snap. -/
def previewStartMins (mins : ℤ) : ℤ :=
  snapMins (max 0 (min (24 * 60 - SNAP_MIN) mins)) SNAP_MIN

/-- In-flight gesture state: the ephemeral preview override (snapped start
minutes and target day index) and the writes issued to the store so far. -/
structure GestureState where
  preview : Option (ℤ × ℤ)
  writes : List StoreWrite
  deriving Repr, DecidableEq

/-- The writes issued by the week view `onDragEnd` for a preview value
`p`: detach (exdates update + insert) for a recurring occurrence, else a
single `actions.update` with the `computeMoveToDay` patch (the week view
`snap` is `snapMins · SNAP_MIN`). -/
def commitDrag (ctx : DragCtx) (p : ℤ × ℤ) : List StoreWrite :=
  if ctx.recurring then
    let r := detachMoveCommit ctx.base ctx.occStartMs ctx.occEndMs
      ctx.weekStartMidnightMs p.2 p.1
    [.updateExdates ctx.base.id r.newExdates, .add r.detached]
  else
    [.update ctx.base.id
      (computeMoveToDay ctx.base.start ctx.base.«end» ctx.weekStartMidnightMs
        p.2 p.1 (fun m => snapMins m SNAP_MIN) SNAP_MIN)]

/-- One step of the drag gesture protocol: `onDragMove2D` only updates the
preview override (`setPreviewStart`), never the store; `pointerup` and
`pointercancel` both run `onDragEnd`, which commits the latest preview (if
any) and clears it. -/
def dragStep (ctx : DragCtx) (st : GestureState) (e : GEvent) : GestureState :=
  match e with
  | .move mins dayIdx => { st with preview := some (previewStartMins mins, dayIdx) }
  | .up | .cancel =>
    match st.preview with
    | none => { st with preview := none }
    | some p => { preview := none, writes := st.writes ++ commitDrag ctx p }

/-- A whole gesture: fold the protocol over the pointer events, starting
with no preview and no writes. -/
def runGesture (ctx : DragCtx) (events : List GEvent) : GestureState :=
  events.foldl (dragStep ctx) { preview := none, writes := [] }

/-- Invariant of the `assignLanes` sweep, relative to the segments placed so
far: the map keys are exactly the placed ids in order; every successful
lookup points at a real lane whose recorded end bounds the end of the
segment;
and two distinct placed segments sharing a lane never truly overlap. -/
def LaneInv (st : LaneState) (placed : List Seg) : Prop :=
  st.laneIndexById.map Prod.fst = placed.map Seg.id ∧
  (∀ s ∈ placed, ∀ i, mapGet st.laneIndexById s.id = some i →
    i < st.laneEnds.length ∧ s.endMins ≤ st.laneEnds.getD i 0) ∧
  (∀ s ∈ placed, ∀ t ∈ placed, ∀ i, mapGet st.laneIndexById s.id = some i →
    mapGet st.laneIndexById t.id = some i → s.id ≠ t.id → ¬ overlapsSeg s t)

/-- A concrete non-recurring drag context used to exercise the gesture
protocol on a plain (non-recurring) event. -/
def plainDragCtx : DragCtx :=
  { base :=
      { id := "e1", title := "E", start := 1000, «end» := 2000,
        allDay := false, rrule := none, exdates := [], parentId := none,
        sourceId := none },
    recurring := false, occStartMs := 1000, occEndMs := 2000,
    weekStartMidnightMs := 0, colIdx := 1 }

theorem jsRound_le_jsRound {q q' : ℚ} (h : q ≤ q') : jsRound q ≤ jsRound q' := by
  unfold jsRound
  exact Int.floor_le_floor (by linarith)

theorem jsRound_intCast (k : ℤ) : jsRound (k : ℚ) = k := by
  unfold jsRound
  rw [show ((k : ℚ) + 1/2) = (1/2 : ℚ) + k by ring, Int.floor_add_int]
  norm_num

theorem snapMins_mono {s : ℤ} (hs : 0 < s) {m m' : ℤ} (h : m ≤ m') :
    snapMins m s ≤ snapMins m' s := by
  unfold snapMins
  have hsq : (0 : ℚ) < (s : ℚ) := by exact_mod_cast hs
  have hq : (m : ℚ) ≤ (m' : ℚ) := by exact_mod_cast h
  refine mul_le_mul_of_nonneg_right (jsRound_le_jsRound ?_) (by exact_mod_cast hs.le)
  gcongr

theorem snapMins_dvd_fixed {m s : ℤ} (hs : 0 < s) (hdvd : s ∣ m) :
    snapMins m s = m := by
  obtain ⟨k, hk⟩ := hdvd
  subst hk
  unfold snapMins
  have hsq : (s : ℚ) ≠ 0 := by exact_mod_cast hs.ne'
  have : ((s * k : ℤ) : ℚ) / (s : ℚ) = (k : ℚ) := by
    push_cast
    field_simp
  rw [this, jsRound_intCast]
  ring

/-- C8: day rotation is a round-trip.  For absolute minutes `a ∈ [0,1440)`
and day-start hour `H ∈ [0,23]`, the forward map equals
`(a - H*60 + 1440) mod 1440`, the backward map equals
`(g + H*60) mod 1440`, and composing `gridMinsToAbsMins` after
`absMinsToGridMins` with the same `H` returns `a`. -/
theorem timeGrid_rotation_roundtrip (a H : ℤ) (ha0 : 0 ≤ a) (ha1 : a < 1440)
    (hH0 : 0 ≤ H) (hH1 : H ≤ 23) :
    absMinsToGridMins a H = (a - H * 60 + 1440) % 1440 ∧
    (∀ g : ℤ, 0 ≤ g → gridMinsToAbsMins g H = (g + H * 60) % 1440) ∧
    gridMinsToAbsMins (absMinsToGridMins a H) H = a := by
  have hoff : max 0 (min 23 H) = H := by omega
  have e1 : absMinsToGridMins a H = (a - H * 60 + 1440) % 1440 := by
    unfold absMinsToGridMins
    simp only [hoff]
    rw [Int.tmod_eq_emod (by omega) (by norm_num)]
    norm_num
  have e2 : ∀ g : ℤ, 0 ≤ g → gridMinsToAbsMins g H = (g + H * 60) % 1440 := by
    intro g hg
    unfold gridMinsToAbsMins
    simp only [hoff]
    rw [Int.tmod_eq_emod (by omega) (by norm_num)]
    norm_num
  refine ⟨e1, e2, ?_⟩
  rw [e1, e2 _ (Int.emod_nonneg _ (by norm_num))]
  omega

/-- Witness for C8 at `a = 100`, `H = 5`. -/
theorem timeGrid_rotation_roundtrip_witness :
    ((0 : ℤ) ≤ 100 ∧ (100 : ℤ) < 1440 ∧ (0 : ℤ) ≤ 5 ∧ (5 : ℤ) ≤ 23) ∧
    (absMinsToGridMins 100 5 = (100 - 5 * 60 + 1440) % 1440 ∧
      (∀ g : ℤ, 0 ≤ g → gridMinsToAbsMins g 5 = (g + 5 * 60) % 1440) ∧
      gridMinsToAbsMins (absMinsToGridMins 100 5) 5 = 100) :=
  ⟨⟨by norm_num, by norm_num, by norm_num, by norm_num⟩,
    timeGrid_rotation_roundtrip 100 5 (by norm_num) (by norm_num) (by norm_num)
      (by norm_num)⟩

/-- C10: for any event, day, target minutes, snap function and snap step,
the move helpers never return a patch with `end` before `start`, and when
the parsed end is at or before the parsed start the clamped duration is zero
and the returned `end` equals the returned `start`. -/
theorem moveHelpers_end_not_before_start (startMs endMs dayMs wkMs dayIndex
    newStartMins : ℤ) (snap : ℤ → ℤ) (snapMin : ℤ) :
    (computeMoveWithinDay startMs endMs dayMs newStartMins snap snapMin).start ≤
      (computeMoveWithinDay startMs endMs dayMs newStartMins snap snapMin).«end» ∧
    (endMs ≤ startMs →
      (computeMoveWithinDay startMs endMs dayMs newStartMins snap snapMin).«end» =
        (computeMoveWithinDay startMs endMs dayMs newStartMins snap snapMin).start) ∧
    (computeMoveToDay startMs endMs wkMs dayIndex newStartMins snap snapMin).start ≤
      (computeMoveToDay startMs endMs wkMs dayIndex newStartMins snap snapMin).«end» ∧
    (endMs ≤ startMs →
      (computeMoveToDay startMs endMs wkMs dayIndex newStartMins snap snapMin).«end» =
        (computeMoveToDay startMs endMs wkMs dayIndex newStartMins snap snapMin).start) := by
  unfold computeMoveWithinDay computeMoveToDay
  have hpos : (0 : ℚ) ≤ ((MS_IN_MIN : ℤ) : ℚ) := by norm_num [MS_IN_MIN]
  have hnn : (0 : ℚ) ≤
      max 0 (((endMs : ℚ) - (startMs : ℚ)) / ((MS_IN_MIN : ℤ) : ℚ)) :=
    le_max_left 0 _
  have hzero : endMs ≤ startMs →
      max 0 (((endMs : ℚ) - (startMs : ℚ)) / ((MS_IN_MIN : ℤ) : ℚ)) = 0 := by
    intro h
    have : ((endMs : ℚ) - (startMs : ℚ)) / ((MS_IN_MIN : ℤ) : ℚ) ≤ 0 := by
      apply div_nonpos_of_nonpos_of_nonneg _ hpos
      have : (endMs : ℚ) ≤ (startMs : ℚ) := by exact_mod_cast h
      linarith
    exact max_eq_left this
  refine ⟨?_, ?_, ?_, ?_⟩
  · simp only
    nlinarith [hnn, hpos]
  · intro h
    simp only
    rw [hzero h]
    ring
  · simp only
    nlinarith [hnn, hpos]
  · intro h
    simp only
    rw [hzero h]
    ring

/-- Witness for C10 at `startMs = 1000`, `endMs = 400` (end before start). -/
theorem moveHelpers_end_not_before_start_witness :
    (400 : ℤ) ≤ 1000 ∧
    (computeMoveWithinDay 1000 400 0 100 id 15).«end» =
      (computeMoveWithinDay 1000 400 0 100 id 15).start :=
  ⟨by norm_num,
    (moveHelpers_end_not_before_start 1000 400 0 0 3 100 id 15).2.1 (by norm_num)⟩

/-- C2 counterexample: with the rounding snap of the app (`snapMins · SNAP_MIN`)
and an event starting at 09:07 (`startMins = 547`), a resize request to
`newEndMinutes = 0` yields an end of 555 minutes — *below*
`start + snapStep = 562`, so the claimed minimum duration of one snap step
is not enforced for snap-unaligned starts. -/
theorem computeResizeWithinDay_min_duration_cex :
    computeResizeWithinDay 547 0 0 (fun m => snapMins m SNAP_MIN) SNAP_MIN <
      0 + (547 + SNAP_MIN) * MS_IN_MIN := by
  have hfloor : jsRound ((562 : ℚ) / (15 : ℚ)) = 37 := by
    unfold jsRound
    rw [show (562 : ℚ) / 15 + 1/2 = 1139/30 by norm_num]
    rw [Int.floor_eq_iff]
    norm_num
  unfold computeResizeWithinDay snapMins SNAP_MIN MS_IN_MIN
  norm_num
  rw [hfloor]
  norm_num

/-- C2 (amended): with the snap of the app (`snapMins · SNAP_MIN`), for an event
whose start minutes are aligned to the snap grid (`SNAP_MIN ∣ startMins`),
the within-day resize end is always at least `start + SNAP_MIN` minutes, and
whenever `newEndMins < startMins + SNAP_MIN` it equals exactly
`start + SNAP_MIN` minutes past midnight.  (For unaligned starts the
rounding snap can land below `start + SNAP_MIN`, see the counterexample.) -/
theorem computeResizeWithinDay_min_duration_aligned (startMins dayMs
    newEndMins : ℤ) (h0 : 0 ≤ startMins) (h1 : startMins < 1440)
    (hal : SNAP_MIN ∣ startMins) :
    dayMs + (startMins + SNAP_MIN) * MS_IN_MIN ≤
      computeResizeWithinDay startMins dayMs newEndMins
        (fun m => snapMins m SNAP_MIN) SNAP_MIN ∧
    (newEndMins < startMins + SNAP_MIN →
      computeResizeWithinDay startMins dayMs newEndMins
        (fun m => snapMins m SNAP_MIN) SNAP_MIN =
        dayMs + (startMins + SNAP_MIN) * MS_IN_MIN) := by
  have hs : (0 : ℤ) < SNAP_MIN := by norm_num [SNAP_MIN]
  have haldvd : SNAP_MIN ∣ (startMins + SNAP_MIN) := by
    exact dvd_add hal dvd_rfl
  have hfix : snapMins (startMins + SNAP_MIN) SNAP_MIN = startMins + SNAP_MIN :=
    snapMins_dvd_fixed hs haldvd
  constructor
  · simp only [computeResizeWithinDay]
    have hle : startMins + SNAP_MIN ≤ max (startMins + SNAP_MIN) (min (24 * 60) newEndMins) :=
      le_max_left _ _
    have := snapMins_mono hs hle
    rw [hfix] at this
    have hM : (0 : ℤ) ≤ MS_IN_MIN := by norm_num [MS_IN_MIN]
    nlinarith [this, hM]
  · intro hlt
    simp only [computeResizeWithinDay]
    have hmin : min (24 * 60) newEndMins ≤ newEndMins := min_le_right _ _
    have hmax : max (startMins + SNAP_MIN) (min (24 * 60) newEndMins) =
        startMins + SNAP_MIN := max_eq_left (by omega)
    rw [hmax, hfix]

/-- Witness for the amended C2 at `startMins = 540` (09:00, grid-aligned),
`newEndMins = 300 < 555`. -/
theorem computeResizeWithinDay_min_duration_aligned_witness :
    ((0 : ℤ) ≤ 540 ∧ (540 : ℤ) < 1440 ∧ SNAP_MIN ∣ (540 : ℤ)) ∧
    (0 + (540 + SNAP_MIN) * MS_IN_MIN ≤
      computeResizeWithinDay 540 0 300 (fun m => snapMins m SNAP_MIN) SNAP_MIN ∧
    ((300 : ℤ) < 540 + SNAP_MIN →
      computeResizeWithinDay 540 0 300 (fun m => snapMins m SNAP_MIN) SNAP_MIN =
        0 + (540 + SNAP_MIN) * MS_IN_MIN)) :=
  ⟨⟨by norm_num, by norm_num, by norm_num [SNAP_MIN]⟩,
    computeResizeWithinDay_min_duration_aligned 540 0 300 (by norm_num)
      (by norm_num) (by norm_num [SNAP_MIN])⟩

/-- C4: every occurrence produced by expanding a recurring base event
(`rrule` set, `parentId` unset) preserves the base duration exactly
(`occurrence.end - occurrence.start = base.end - base.start`) and starts at
a rule-generated instance date. -/
theorem expandEvent_duration_preserved {R : Type}
    (rrulestr : String → ℤ → Option R) (between : R → ℤ → ℤ → List ℤ)
    (winS winE : ℤ) (ev : EventItem) (r : String) (rule : R)
    (out : List EventItem) (o : EventItem)
    (hp : ev.parentId = none) (hr : ev.rrule = some r)
    (hparse : rrulestr r ev.start = some rule)
    (hok : expandEvent rrulestr between winS winE ev = .ok out)
    (ho : o ∈ out) :
    o.«end» - o.start = ev.«end» - ev.start ∧ o.start ∈ between rule winS winE := by
  unfold expandEvent at hok
  rw [hp, hr] at hok
  dsimp only at hok
  rw [hparse] at hok
  simp only [Except.ok.injEq] at hok
  subst hok
  rw [List.mem_map] at ho
  obtain ⟨d, hd, rfl⟩ := ho
  refine ⟨by dsimp; ring, ?_⟩
  dsimp
  exact (List.mem_filter.mp hd).1

/-- Witness for C4: a daily-style rule producing one instance at 1000ms for
a base event of duration 300ms. -/
theorem expandEvent_duration_preserved_witness :
    (expandEvent (R := Unit) (fun _ _ => some ()) (fun _ s _ => [s]) 1000 2000
        { id := "e", title := "E", start := 500, «end» := 800, allDay := false,
          rrule := some "R", exdates := [], parentId := none, sourceId := none } =
      .ok [{ id := "e::1000", title := "E", start := 1000, «end» := 1300,
             allDay := false, rrule := some "R", exdates := [], parentId := none,
             sourceId := some "e" }]) ∧
    ((1300 : ℤ) - 1000 = 800 - 500 ∧ (1000 : ℤ) ∈ [(1000 : ℤ)]) := by
  constructor
  · rfl
  · exact expandEvent_duration_preserved (R := Unit) (fun _ _ => some ())
      (fun _ s _ => [s]) 1000 2000
      { id := "e", title := "E", start := 500, «end» := 800, allDay := false,
        rrule := some "R", exdates := [], parentId := none, sourceId := none }
      "R" () _
      { id := "e::1000", title := "E", start := 1000, «end» := 1300,
        allDay := false, rrule := some "R", exdates := [], parentId := none,
        sourceId := some "e" }
      rfl rfl rfl rfl (List.mem_singleton.mpr rfl)

/-- C7: expansion of a recurring base event never emits an occurrence whose
instance start timestamp equals an entry of the `exdates` of the event. -/
theorem expandEvent_never_emits_exdate {R : Type}
    (rrulestr : String → ℤ → Option R) (between : R → ℤ → ℤ → List ℤ)
    (winS winE : ℤ) (ev : EventItem) (r : String)
    (out : List EventItem) (o : EventItem)
    (hp : ev.parentId = none) (hr : ev.rrule = some r)
    (hok : expandEvent rrulestr between winS winE ev = .ok out)
    (ho : o ∈ out) :
    o.start ∉ ev.exdates := by
  unfold expandEvent at hok
  rw [hp, hr] at hok
  dsimp only at hok
  cases hparse : rrulestr r ev.start with
  | none => rw [hparse] at hok; exact absurd hok (by simp)
  | some rule =>
    rw [hparse] at hok
    simp only [Except.ok.injEq] at hok
    subst hok
    rw [List.mem_map] at ho
    obtain ⟨d, hd, rfl⟩ := ho
    have h2 := (List.mem_filter.mp hd).2
    dsimp
    simp only [Bool.not_eq_eq_eq_not, Bool.not_true, List.any_eq_false,
      decide_eq_true_eq] at h2
    intro hmem
    exact absurd rfl (h2 _ hmem)

/-- Witness for C7: the rule generates instances 1000 and 2000; 2000 is an
exdate, and the emitted occurrence start 1000 is not in `exdates`. -/
theorem expandEvent_never_emits_exdate_witness :
    (expandEvent (R := Unit) (fun _ _ => some ()) (fun _ s e => [s, e]) 1000 2000
        { id := "e", title := "E", start := 500, «end» := 800, allDay := false,
          rrule := some "R", exdates := [2000], parentId := none, sourceId := none } =
      .ok [{ id := "e::1000", title := "E", start := 1000, «end» := 1300,
             allDay := false, rrule := some "R", exdates := [2000], parentId := none,
             sourceId := some "e" }]) ∧
    (1000 : ℤ) ∉ [(2000 : ℤ)] := by
  constructor
  · rfl
  · exact expandEvent_never_emits_exdate (R := Unit) (fun _ _ => some ())
      (fun _ s e => [s, e]) 1000 2000
      { id := "e", title := "E", start := 500, «end» := 800, allDay := false,
        rrule := some "R", exdates := [2000], parentId := none, sourceId := none }
      "R" _
      { id := "e::1000", title := "E", start := 1000, «end» := 1300,
        allDay := false, rrule := some "R", exdates := [2000], parentId := none,
        sourceId := some "e" }
      rfl rfl rfl (List.mem_singleton.mpr rfl)

/-- C3: `expandEventsForRange` has no try/catch around `rrulestr`, so one
malformed rule aborts the whole expansion — the plain event `"b"` yields no
occurrence.  The specified failure policy ("a single malformed rule must not
abort expansion of other events") is violated by the code. -/
theorem expandEventsForRange_malformed_rrule_aborts :
    expandEventsForRange (R := Unit)
      (fun s _ => if s = "FREQ=NOPE" then none else some ())
      (fun _ s e => [s, e]) id id
      [{ id := "a", title := "A", start := 0, «end» := 60, allDay := false,
         rrule := some "FREQ=NOPE", exdates := [], parentId := none,
         sourceId := none },
       { id := "b", title := "B", start := 100, «end» := 200, allDay := false,
         rrule := none, exdates := [], parentId := none, sourceId := none }]
      0 1000 = Except.error "Invalid rrule: FREQ=NOPE" := by
  rfl

/-- C5: committing a drag or resize gesture on a recurring occurrence
detaches it instead of mutating the series: the original instance start of
the occurrence is appended to the series `exdates` (and the series update
touches no other field), and the inserted event has `parentId = series.id`,
no `rrule`, and the edited start/end (drag: target day/minutes with the
duration of the occurrence preserved; resize: original start with the new end). -/
theorem detachCommit_props (parent : EventItem) (oS oE wk di sm em : ℤ) :
    (detachMoveCommit parent oS oE wk di sm).newExdates =
      parent.exdates ++ [oS] ∧
    (detachMoveCommit parent oS oE wk di sm).detached.parentId =
      some parent.id ∧
    (detachMoveCommit parent oS oE wk di sm).detached.rrule = none ∧
    (detachMoveCommit parent oS oE wk di sm).detached.start =
      wk + di * MS_IN_DAY + sm * MS_IN_MIN ∧
    (detachMoveCommit parent oS oE wk di sm).detached.«end» -
      (detachMoveCommit parent oS oE wk di sm).detached.start = oE - oS ∧
    (applyExdatesPatch parent
        (detachMoveCommit parent oS oE wk di sm).newExdates).id = parent.id ∧
    (applyExdatesPatch parent
        (detachMoveCommit parent oS oE wk di sm).newExdates).title =
      parent.title ∧
    (applyExdatesPatch parent
        (detachMoveCommit parent oS oE wk di sm).newExdates).start =
      parent.start ∧
    (applyExdatesPatch parent
        (detachMoveCommit parent oS oE wk di sm).newExdates).«end» =
      parent.«end» ∧
    (applyExdatesPatch parent
        (detachMoveCommit parent oS oE wk di sm).newExdates).allDay =
      parent.allDay ∧
    (applyExdatesPatch parent
        (detachMoveCommit parent oS oE wk di sm).newExdates).rrule =
      parent.rrule ∧
    (applyExdatesPatch parent
        (detachMoveCommit parent oS oE wk di sm).newExdates).parentId =
      parent.parentId ∧
    (applyExdatesPatch parent
        (detachMoveCommit parent oS oE wk di sm).newExdates).sourceId =
      parent.sourceId ∧
    (detachResizeCommit parent oS wk di em).newExdates =
      parent.exdates ++ [oS] ∧
    (detachResizeCommit parent oS wk di em).detached.parentId =
      some parent.id ∧
    (detachResizeCommit parent oS wk di em).detached.rrule = none ∧
    (detachResizeCommit parent oS wk di em).detached.start = oS ∧
    (detachResizeCommit parent oS wk di em).detached.«end» =
      wk + di * MS_IN_DAY + em * MS_IN_MIN :=
  ⟨rfl, rfl, rfl, rfl, by simp [detachMoveCommit], rfl, rfl, rfl, rfl, rfl,
    rfl, rfl, rfl, rfl, rfl, rfl, rfl, rfl⟩

theorem placeSeg_idx_le (ends : List ℤ) (s : Seg) :
    (placeSeg ends s).1 ≤ ends.length := by
  induction ends with
  | nil => simp [placeSeg]
  | cons e rest ih =>
    by_cases h : e ≤ s.startMins
    · simp [placeSeg, h]
    · simp only [placeSeg, if_neg h, List.length_cons]
      exact Nat.succ_le_succ ih

theorem placeSeg_len (ends : List ℤ) (s : Seg) :
    (placeSeg ends s).2.length = max ends.length ((placeSeg ends s).1 + 1) := by
  induction ends with
  | nil => simp [placeSeg]
  | cons e rest ih =>
    by_cases h : e ≤ s.startMins
    · simp [placeSeg, h]
    · simp only [placeSeg, if_neg h, List.length_cons]
      omega

theorem placeSeg_get_self (ends : List ℤ) (s : Seg) :
    (placeSeg ends s).2.getD (placeSeg ends s).1 0 = s.endMins := by
  induction ends with
  | nil => simp [placeSeg]
  | cons e rest ih =>
    by_cases h : e ≤ s.startMins
    · simp [placeSeg, h]
    · simp only [placeSeg, if_neg h, List.getD_cons_succ]
      exact ih

theorem placeSeg_get_other (ends : List ℤ) (s : Seg) (j : ℕ)
    (hj : j ≠ (placeSeg ends s).1) :
    (placeSeg ends s).2.getD j 0 = ends.getD j 0 := by
  induction ends generalizing j with
  | nil =>
    simp only [placeSeg] at hj ⊢
    match j, hj with
    | j + 1, _ => simp
  | cons e rest ih =>
    by_cases h : e ≤ s.startMins
    · simp only [placeSeg, if_neg (by simpa [placeSeg, h] using hj : ¬ j = 0)]
      match j, (by simpa [placeSeg, h] using hj : ¬ j = 0) with
      | j + 1, _ => simp [placeSeg, h]
    · simp only [placeSeg, if_neg h] at hj ⊢
      match j, hj with
      | 0, _ => simp
      | j + 1, hj =>
        simp only [List.getD_cons_succ]
        exact ih j (by omega)

theorem placeSeg_reuse (ends : List ℤ) (s : Seg)
    (h : (placeSeg ends s).1 < ends.length) :
    ends.getD (placeSeg ends s).1 0 ≤ s.startMins := by
  induction ends with
  | nil => simp [placeSeg] at h
  | cons e rest ih =>
    by_cases he : e ≤ s.startMins
    · simpa [placeSeg, he] using he
    · simp only [placeSeg, if_neg he, List.length_cons] at h ⊢
      simp only [List.getD_cons_succ]
      exact ih (by omega)

theorem mapGet_cons (p : String × ℕ) (rest : List (String × ℕ)) (k : String) :
    mapGet (p :: rest) k = if p.1 = k then some p.2 else mapGet rest k := by
  unfold mapGet
  rw [List.find?_cons]
  by_cases h : p.1 = k
  · simp [h]
  · simp [h]

theorem mapGet_isSome_iff (m : List (String × ℕ)) (k : String) :
    (mapGet m k).isSome ↔ k ∈ m.map Prod.fst := by
  induction m with
  | nil => simp [mapGet]
  | cons p rest ih =>
    rw [mapGet_cons]
    by_cases h : p.1 = k
    · simp [h]
    · simp [h, ih, Ne.symm h]

theorem mapGet_append_left (m₁ m₂ : List (String × ℕ)) (k : String)
    (h : k ∈ m₁.map Prod.fst) :
    mapGet (m₁ ++ m₂) k = mapGet m₁ k := by
  induction m₁ with
  | nil => simp at h
  | cons p rest ih =>
    rw [List.cons_append, mapGet_cons, mapGet_cons]
    by_cases hp : p.1 = k
    · simp [hp]
    · simp only [List.map_cons, List.mem_cons] at h
      rcases h with h | h
      · exact absurd h.symm hp
      · simp only [if_neg hp]
        exact ih h

theorem mapGet_append_fresh (m : List (String × ℕ)) (k : String) (v : ℕ)
    (h : k ∉ m.map Prod.fst) :
    mapGet (m ++ [(k, v)]) k = some v := by
  induction m with
  | nil => simp [mapGet, List.find?_cons]
  | cons p rest ih =>
    simp only [List.map_cons, List.mem_cons] at h
    push_neg at h
    rw [List.cons_append, mapGet_cons, if_neg (fun hh => h.1 hh.symm)]
    exact ih h.2

theorem mapSet_fresh (m : List (String × ℕ)) (k : String) (v : ℕ)
    (h : k ∉ m.map Prod.fst) :
    mapSet m k v = m ++ [(k, v)] := by
  unfold mapSet
  rw [if_neg]
  intro hany
  rw [List.any_eq_true] at hany
  obtain ⟨p, hp, hpk⟩ := hany
  rw [decide_eq_true_eq] at hpk
  exact h (hpk ▸ List.mem_map_of_mem Prod.fst hp)

theorem overlapsSeg_symm {a b : Seg} (h : overlapsSeg a b) : overlapsSeg b a :=
  ⟨h.2, h.1⟩

theorem laneInv_init : LaneInv { laneEnds := [], laneIndexById := [] } [] := by
  refine ⟨rfl, ?_, ?_⟩
  · intro s hs; simp at hs
  · intro s hs; simp at hs

theorem laneInv_step (st : LaneState) (placed : List Seg) (s : Seg)
    (hinv : LaneInv st placed) (hw : s.startMins < s.endMins)
    (hfresh : s.id ∉ placed.map Seg.id) :
    LaneInv (assignStep st s) (placed ++ [s]) := by
  obtain ⟨hkeys, hI2, hI3⟩ := hinv
  have hfreshm : s.id ∉ st.laneIndexById.map Prod.fst := by
    rw [hkeys]; exact hfresh
  have hmap : (assignStep st s).laneIndexById =
      st.laneIndexById ++ [(s.id, (placeSeg st.laneEnds s).1)] := by
    simp [assignStep, mapSet_fresh _ _ _ hfreshm]
  have hends : (assignStep st s).laneEnds = (placeSeg st.laneEnds s).2 := rfl
  have hlook_old : ∀ t ∈ placed,
      mapGet (assignStep st s).laneIndexById t.id = mapGet st.laneIndexById t.id := by
    intro t ht
    rw [hmap]
    exact mapGet_append_left _ _ _ (by rw [hkeys]; exact List.mem_map_of_mem _ ht)
  have hlook_s : mapGet (assignStep st s).laneIndexById s.id =
      some (placeSeg st.laneEnds s).1 := by
    rw [hmap]
    exact mapGet_append_fresh _ _ _ hfreshm
  have hne : ∀ t ∈ placed, t.id ≠ s.id := by
    intro t ht h
    exact hfresh (h ▸ List.mem_map_of_mem Seg.id ht)
  refine ⟨?_, ?_, ?_⟩
  · rw [hmap, List.map_append, hkeys, List.map_append]
    rfl
  · intro u hu i hui
    rcases List.mem_append.mp hu with hu | hu
    · rw [hlook_old u hu] at hui
      obtain ⟨hlt, hle⟩ := hI2 u hu i hui
      constructor
      · rw [hends, placeSeg_len]
        omega
      · by_cases hi : i = (placeSeg st.laneEnds s).1
        · subst hi
          rw [hends, placeSeg_get_self]
          have hreuse := placeSeg_reuse st.laneEnds s hlt
          omega
        · rw [hends, placeSeg_get_other _ _ _ hi]
          exact hle
    · rw [List.mem_singleton.mp hu] at hui ⊢
      rw [hlook_s] at hui
      have hi := Option.some.inj hui
      subst hi
      constructor
      · rw [hends, placeSeg_len]
        omega
      · rw [hends, placeSeg_get_self]
  · intro u hu t ht i hui hti hid
    rcases List.mem_append.mp hu with hu | hu <;>
      rcases List.mem_append.mp ht with ht | ht
    · rw [hlook_old u hu] at hui
      rw [hlook_old t ht] at hti
      exact hI3 u hu t ht i hui hti hid
    · rw [List.mem_singleton.mp ht] at hti hid ⊢
      rw [hlook_old u hu] at hui
      rw [hlook_s] at hti
      have hi := Option.some.inj hti
      subst hi
      obtain ⟨hlt, hle⟩ := hI2 u hu _ hui
      have hreuse := placeSeg_reuse st.laneEnds s hlt
      intro hov
      exact absurd hov.2 (by omega)
    · rw [List.mem_singleton.mp hu] at hui hid ⊢
      rw [hlook_old t ht] at hti
      rw [hlook_s] at hui
      have hi := Option.some.inj hui
      rw [← hi] at hti
      obtain ⟨hlt, hle⟩ := hI2 t ht _ hti
      have hreuse := placeSeg_reuse st.laneEnds s hlt
      intro hov
      exact absurd hov.1 (by omega)
    · rw [List.mem_singleton.mp hu, List.mem_singleton.mp ht] at hid
      exact absurd rfl hid

theorem laneInv_foldl (l : List Seg) : ∀ (st : LaneState) (placed : List Seg),
    LaneInv st placed → (∀ x ∈ l, x.startMins < x.endMins) →
    ((placed ++ l).map Seg.id).Nodup →
    LaneInv (l.foldl assignStep st) (placed ++ l) := by
  induction l with
  | nil =>
    intro st placed hinv _ _
    simpa using hinv
  | cons s rest ih =>
    intro st placed hinv hwf hnd
    have hfresh : s.id ∉ placed.map Seg.id := by
      rw [List.map_append, List.nodup_append] at hnd
      intro hmem
      exact hnd.2.2 hmem (by simp)
    have h1 := laneInv_step st placed s hinv (hwf s (by simp)) hfresh
    have hassoc : placed ++ s :: rest = (placed ++ [s]) ++ rest := by simp
    rw [List.foldl_cons, hassoc]
    exact ih (assignStep st s) (placed ++ [s]) h1
      (fun x hx => hwf x (List.mem_cons_of_mem _ hx))
      (by rw [← hassoc]; exact hnd)

theorem laneSweep_facts (segs : List Seg) (hnd : (segs.map Seg.id).Nodup) :
    LaneInv ((assignLanes segs).sorted.foldl assignStep
        { laneEnds := [], laneIndexById := [] }) (assignLanes segs).sorted ∧
    (∀ x ∈ (assignLanes segs).sorted, x ∈ segs ∧ x.startMins < x.endMins) ∧
    (assignLanes segs).laneIndexById =
      ((assignLanes segs).sorted.foldl assignStep
        { laneEnds := [], laneIndexById := [] }).laneIndexById := by
  have hperm : (assignLanes segs).sorted.Perm
      (segs.filter (fun s => s.endMins > s.startMins)) :=
    List.mergeSort_perm _ segLE
  have hmemfacts : ∀ x ∈ (assignLanes segs).sorted,
      x ∈ segs ∧ x.startMins < x.endMins := by
    intro x hx
    have hx' := hperm.mem_iff.mp hx
    refine ⟨List.mem_of_mem_filter hx', ?_⟩
    have := (List.mem_filter.mp hx').2
    simpa using this
  have hwf : ∀ x ∈ (assignLanes segs).sorted, x.startMins < x.endMins :=
    fun x hx => (hmemfacts x hx).2
  have hndsorted : ((assignLanes segs).sorted.map Seg.id).Nodup := by
    have h1 : ((segs.filter (fun s => s.endMins > s.startMins)).map Seg.id).Nodup :=
      ((List.filter_sublist segs).map Seg.id).nodup hnd
    exact ((hperm.map Seg.id).nodup_iff).mpr h1
  have hinv := laneInv_foldl (assignLanes segs).sorted
    { laneEnds := [], laneIndexById := [] } [] laneInv_init hwf
    (by simpa using hndsorted)
  rw [List.nil_append] at hinv
  exact ⟨hinv, hmemfacts, rfl⟩

/-- C1: in the result of `assignLanes`, two segments of the input that truly
overlap (`a.startMins < b.endMins ∧ b.startMins < a.endMins`) and whose ids
are mapped to the same lane index in `laneIndexById` must be the same
segment — no two distinct truly-overlapping segments share a lane.  Input
ids are assumed unique (the BaseEvent/Segment id invariant of the spec). -/
theorem assignLanes_no_true_overlap_shares_lane (segs : List Seg)
    (hnd : (segs.map Seg.id).Nodup) (a b : Seg) (ha : a ∈ segs) (hb : b ∈ segs)
    (hover : overlapsSeg a b) (i : ℕ)
    (hA : mapGet (assignLanes segs).laneIndexById a.id = some i)
    (hB : mapGet (assignLanes segs).laneIndexById b.id = some i) :
    a = b := by
  obtain ⟨⟨hkeys, _hI2, hI3⟩, hmemfacts, hmapid⟩ := laneSweep_facts segs hnd
  have hinj : ∀ x ∈ segs, ∀ y ∈ segs, x.id = y.id → x = y :=
    fun x hx y hy hxy => List.inj_on_of_nodup_map hnd hx hy hxy
  have hmem_of_lookup : ∀ x ∈ segs,
      (mapGet (assignLanes segs).laneIndexById x.id).isSome →
      x ∈ (assignLanes segs).sorted := by
    intro x hx hsome
    rw [hmapid, mapGet_isSome_iff, hkeys] at hsome
    obtain ⟨y, hy, hyx⟩ := List.mem_map.mp hsome
    have hyseg := (hmemfacts y hy).1
    have := hinj y hyseg x hx hyx
    rwa [← this]
  have ha' : a ∈ (assignLanes segs).sorted :=
    hmem_of_lookup a ha (by rw [hA]; rfl)
  have hb' : b ∈ (assignLanes segs).sorted :=
    hmem_of_lookup b hb (by rw [hB]; rfl)
  by_cases hid : a.id = b.id
  · exact hinj a ha b hb hid
  · rw [hmapid] at hA hB
    exact absurd hover (hI3 a ha' b hb' i hA hB hid)

theorem assignLanes_singleton_map :
    (assignLanes [⟨"x", 0, 60⟩]).laneIndexById = [("x", 0)] := by
  unfold assignLanes
  rw [show List.filter (fun s => s.endMins > s.startMins)
    ([⟨"x", 0, 60⟩] : List Seg) = [⟨"x", 0, 60⟩] from rfl]
  rw [List.mergeSort_singleton]
  rfl

/-- Witness for C1 at a one-segment input (the hypotheses force `a = b`). -/
theorem assignLanes_no_true_overlap_shares_lane_witness :
    (([⟨"x", 0, 60⟩] : List Seg).map Seg.id).Nodup ∧
    (⟨"x", 0, 60⟩ : Seg) ∈ ([⟨"x", 0, 60⟩] : List Seg) ∧
    overlapsSeg ⟨"x", 0, 60⟩ ⟨"x", 0, 60⟩ ∧
    mapGet (assignLanes [⟨"x", 0, 60⟩]).laneIndexById "x" = some 0 ∧
    (⟨"x", 0, 60⟩ : Seg) = ⟨"x", 0, 60⟩ := by
  have hA : mapGet (assignLanes [⟨"x", 0, 60⟩]).laneIndexById "x" = some 0 := by
    rw [assignLanes_singleton_map]
    decide
  refine ⟨by decide, by decide, by decide, hA, ?_⟩
  exact assignLanes_no_true_overlap_shares_lane [⟨"x", 0, 60⟩] (by decide)
    ⟨"x", 0, 60⟩ ⟨"x", 0, 60⟩ (by decide) (by decide) (by decide) 0 hA hA

/-- C9: degenerate segments are harmless.  If every input segment has
`endMins ≤ startMins` (including the empty input), `assignLanes` returns
`laneCount = 1`, an empty `laneIndexById` and an empty sorted list; and in
general non-positive-length segments never appear in the sorted output and
(for unique ids) never occupy a lane. -/
theorem assignLanes_degenerate (segs : List Seg) :
    ((∀ s ∈ segs, s.endMins ≤ s.startMins) →
      assignLanes segs = { sorted := [], laneIndexById := [], laneCount := 1 }) ∧
    (∀ s ∈ (assignLanes segs).sorted, s.startMins < s.endMins) ∧
    ((segs.map Seg.id).Nodup → ∀ s ∈ segs, s.endMins ≤ s.startMins →
      mapGet (assignLanes segs).laneIndexById s.id = none) := by
  refine ⟨?_, ?_, ?_⟩
  · intro h
    have hfil : segs.filter (fun s => s.endMins > s.startMins) = [] := by
      rw [List.filter_eq_nil_iff]
      intro a ha
      simp only [decide_eq_true_eq, not_lt, gt_iff_lt]
      exact h a ha
    unfold assignLanes
    rw [hfil, List.mergeSort_nil]
    rfl
  · intro s hs
    have hs' : s ∈ (segs.filter (fun s => s.endMins > s.startMins)).mergeSort segLE := hs
    have := (List.mem_filter.mp ((List.mergeSort_perm _ segLE).mem_iff.mp hs')).2
    simpa using this
  · intro hnd s hs hdeg
    obtain ⟨⟨hkeys, _, _⟩, hmemfacts, hmapid⟩ := laneSweep_facts segs hnd
    have hinj : ∀ x ∈ segs, ∀ y ∈ segs, x.id = y.id → x = y :=
      fun x hx y hy hxy => List.inj_on_of_nodup_map hnd hx hy hxy
    have hnotin : s.id ∉ ((assignLanes segs).laneIndexById.map Prod.fst) := by
      rw [hmapid, hkeys]
      intro hmem
      obtain ⟨y, hy, hyid⟩ := List.mem_map.mp hmem
      obtain ⟨hyseg, hylt⟩ := hmemfacts y hy
      have heq : y = s := hinj y hyseg s hs hyid
      rw [heq] at hylt
      omega
    cases hm : mapGet (assignLanes segs).laneIndexById s.id with
    | none => rfl
    | some v =>
      exact absurd ((mapGet_isSome_iff _ _).mp (by rw [hm]; rfl)) hnotin

/-- Witness for C9 at the input `[⟨"a", 5, 5⟩]` (a zero-length segment). -/
theorem assignLanes_degenerate_witness :
    (∀ s ∈ ([⟨"a", 5, 5⟩] : List Seg), s.endMins ≤ s.startMins) ∧
    assignLanes [⟨"a", 5, 5⟩] =
      { sorted := [], laneIndexById := [], laneCount := 1 } ∧
    (([⟨"a", 5, 5⟩] : List Seg).map Seg.id).Nodup ∧
    mapGet (assignLanes [⟨"a", 5, 5⟩]).laneIndexById "a" = none :=
  ⟨by decide,
    (assignLanes_degenerate [⟨"a", 5, 5⟩]).1 (by decide),
    by decide,
    (assignLanes_degenerate [⟨"a", 5, 5⟩]).2.2 (by decide) ⟨"a", 5, 5⟩
      (by decide) (by decide)⟩

theorem dragSteps_moves (ctx : DragCtx) (moves : List (ℤ × ℤ)) :
    ∀ st : GestureState,
    (moves.map (fun md => GEvent.move md.1 md.2)).foldl (dragStep ctx) st =
      { preview := moves.foldl (fun _ md => some (previewStartMins md.1, md.2))
          st.preview,
        writes := st.writes } := by
  induction moves with
  | nil => intro st; simp
  | cons m rest ih =>
    intro st
    rw [List.map_cons, List.foldl_cons, List.foldl_cons, ih]
    rfl

theorem previewFold_ne_nil (moves : List (ℤ × ℤ)) (h : moves ≠ []) :
    ∀ init : Option (ℤ × ℤ), ∃ p,
      moves.foldl (fun _ md => some (previewStartMins md.1, md.2)) init = some p := by
  induction moves with
  | nil => exact absurd rfl h
  | cons m rest ih =>
    intro init
    rw [List.foldl_cons]
    by_cases hr : rest = []
    · subst hr
      exact ⟨_, rfl⟩
    · exact ih hr _

/-- C6 (amended): pointer moves never write to the store; all persisted
writes happen at gesture end (`pointerup` or `pointercancel` — the code
wires both to the same handler, so a cancelled gesture also commits) using
the most recent preview value; a gesture on a non-recurring event issues at
most one write, while committing a gesture on a recurring occurrence issues
exactly two (the series `exdates` update and the detached insert). -/
theorem gesture_write_discipline (ctx : DragCtx) (moves : List (ℤ × ℤ))
    (t : GEvent) (ht : t = GEvent.up ∨ t = GEvent.cancel) :
    (runGesture ctx (moves.map (fun md => GEvent.move md.1 md.2))).writes = [] ∧
    (runGesture ctx (moves.map (fun md => GEvent.move md.1 md.2) ++ [t])).writes =
      (match (runGesture ctx (moves.map (fun md => GEvent.move md.1 md.2))).preview with
        | none => []
        | some p => commitDrag ctx p) ∧
    (ctx.recurring = false →
      (runGesture ctx
        (moves.map (fun md => GEvent.move md.1 md.2) ++ [t])).writes.length ≤ 1) ∧
    (ctx.recurring = true → moves ≠ [] →
      (runGesture ctx
        (moves.map (fun md => GEvent.move md.1 md.2) ++ [t])).writes.length = 2) := by
  have hrunS : runGesture ctx (moves.map (fun md => GEvent.move md.1 md.2)) =
      { preview := moves.foldl (fun _ md => some (previewStartMins md.1, md.2)) none,
        writes := [] } :=
    dragSteps_moves ctx moves { preview := none, writes := [] }
  have happ : runGesture ctx (moves.map (fun md => GEvent.move md.1 md.2) ++ [t]) =
      dragStep ctx (runGesture ctx (moves.map (fun md => GEvent.move md.1 md.2))) t := by
    unfold runGesture
    rw [List.foldl_append]
    rfl
  have hcommit : ∀ st : GestureState,
      dragStep ctx st t =
        match st.preview with
        | none => { st with preview := none }
        | some p => { preview := none, writes := st.writes ++ commitDrag ctx p } := by
    intro st
    rcases ht with rfl | rfl <;> rfl
  refine ⟨by rw [hrunS], ?_, ?_, ?_⟩
  · rw [happ, hcommit, hrunS]
    cases hp : moves.foldl (fun _ md => some (previewStartMins md.1, md.2)) none with
    | none => rfl
    | some p => simp
  · intro hrec
    rw [happ, hcommit, hrunS]
    cases hp : moves.foldl (fun _ md => some (previewStartMins md.1, md.2)) none with
    | none => simp
    | some p => simp [commitDrag, hrec]
  · intro hrec hmv
    obtain ⟨p, hp⟩ := previewFold_ne_nil moves hmv none
    rw [happ, hcommit, hrunS]
    rw [hp]
    simp [commitDrag, hrec]

/-- C6 counterexample: a gesture on a recurring occurrence (one pointer
move, then pointer-cancel) issues two persisted writes — the series
`exdates` update and the detached insert — refuting both "at most one
persisted write per gesture" and "an aborted gesture sends no patch"
(the code handles `pointercancel` like `pointerup`). -/
theorem gesture_write_discipline_cex :
    ¬ ((runGesture
        { base :=
            { id := "s", title := "S", start := 0, «end» := 3600000,
              allDay := false, rrule := some "FREQ=DAILY", exdates := [],
              parentId := none, sourceId := none },
          recurring := true, occStartMs := 0, occEndMs := 3600000,
          weekStartMidnightMs := 0, colIdx := 0 }
        [GEvent.move 100 2, GEvent.cancel]).writes.length ≤ 1) := by
  intro h
  simp only [runGesture, List.foldl_cons, List.foldl_nil, dragStep,
    commitDrag] at h
  simp at h

/-- Witness for the amended C6: one pointer move then pointer-up on a
non-recurring event. -/
theorem gesture_write_discipline_witness :
    (GEvent.up = GEvent.up ∨ GEvent.up = GEvent.cancel) ∧
    ((runGesture plainDragCtx
        ([((100 : ℤ), (2 : ℤ))].map (fun md => GEvent.move md.1 md.2))).writes = [] ∧
    (runGesture plainDragCtx
        ([((100 : ℤ), (2 : ℤ))].map (fun md => GEvent.move md.1 md.2) ++
          [GEvent.up])).writes =
      (match (runGesture plainDragCtx
          ([((100 : ℤ), (2 : ℤ))].map (fun md => GEvent.move md.1 md.2))).preview with
        | none => []
        | some p => commitDrag plainDragCtx p) ∧
    (plainDragCtx.recurring = false →
      (runGesture plainDragCtx
        ([((100 : ℤ), (2 : ℤ))].map (fun md => GEvent.move md.1 md.2) ++
          [GEvent.up])).writes.length ≤ 1) ∧
    (plainDragCtx.recurring = true → [((100 : ℤ), (2 : ℤ))] ≠ [] →
      (runGesture plainDragCtx
        ([((100 : ℤ), (2 : ℤ))].map (fun md => GEvent.move md.1 md.2) ++
          [GEvent.up])).writes.length = 2)) :=
  ⟨Or.inl rfl,
    gesture_write_discipline plainDragCtx [((100 : ℤ), (2 : ℤ))] GEvent.up
      (Or.inl rfl)⟩
